import Mathlib

/-!
Verification development for the segmentation-and-pipeline core of the
`fortunestoldco/bedrock` repository.

The Python sources embedded here:

* `src/temp/chunk_manuscript.py` — `chunk_text`, `preserve_chapter_integrity`;
* `src/manuscript.py`            — `ManuscriptProcessor.process_chunks`
                                   (dispatch, skip, reassembly, phase write)
                                   and `ManuscriptProcessor.get_chunk_text`;
* `src/dynamo.py`                — `DynamoDBManager.update_project_metadata`.

Modelling conventions.  Sentence tokenization (NLTK `sent_tokenize`) and token
counting (tiktoken `count_tokens`) are external library calls: a document is
modelled by the list of its atomic units (sentences) and the token counter is
an explicit parameter `tc : String → Nat`.  Filesystem state is modelled by
functions to `Option String` (`none` = the file does not exist).  Python code
that can raise an exception is modelled with `Option` results (`none` = the
call raises).  Python float comparisons `pos > len * 0.7` and
`a + b < max_tokens * 1.3` are modelled by the exact rational comparisons
`10 * pos > 7 * len` and `10 * (a + b) < 13 * max_tokens`.
-/

namespace Storybook

/-- Token count of a list of sentences: the running
`current_token_count` of `chunk_text` always equals this sum. -/
def sumTc (tc : String → Nat) (l : List String) : Nat :=
  (l.map tc).sum

/-- The backward walk of `chunk_text` (src/temp/chunk_manuscript.py lines
47-55) on the reversed chunk: keep taking sentences from the end while the
accumulated token count stays within `ov`; stop at the first failure. -/
def takeOverlapRev (tc : String → Nat) (ov : Nat) : List String → Nat → List String
  | [], _ => []
  | s :: rest, acc =>
    if acc + tc s ≤ ov then s :: takeOverlapRev tc ov rest (acc + tc s) else []

/-- The overlap seed carried from a just-closed chunk into its successor
(`overlap_text` in `chunk_text`): sentences are collected from the end and
re-inserted at position 0, i.e. the result is the reverse of the backward
walk over the reversed chunk. -/
def overlapSuffix (tc : String → Nat) (ov : Nat) (c : List String) : List String :=
  (takeOverlapRev tc ov c.reverse 0).reverse

/-- The main loop of `chunk_text` (lines 33-68), one step per sentence.
State: the accumulated `current_chunk` and `current_token_count`.  When the
next sentence would exceed `maxT` and the chunk is non-empty, the chunk is
closed and the next one is seeded with the overlap suffix; the final
non-empty chunk is flushed at the end. -/
def chunkLoop (tc : String → Nat) (maxT ov : Nat) :
    List String → List String → Nat → List (List String)
  | [], current, _ => if current = [] then [] else [current]
  | s :: rest, current, count =>
    if count + tc s > maxT ∧ current ≠ [] then
      current :: chunkLoop tc maxT ov rest (overlapSuffix tc ov current ++ [s])
        (sumTc tc (overlapSuffix tc ov current) + tc s)
    else
      chunkLoop tc maxT ov rest (current ++ [s]) (count + tc s)

/-- `chunk_text` at sentence granularity: the produced chunks, each one the
list of sentences it contains (before the final `" ".join`). -/
def chunkUnits (tc : String → Nat) (sents : List String) (maxT ov : Nat) :
    List (List String) :=
  chunkLoop tc maxT ov sents [] 0

/-- `" ".join` of a list of sentences. -/
def joinSp : List String → String
  | [] => ""
  | [s] => s
  | s :: s2 :: rest => s ++ " " ++ joinSp (s2 :: rest)

/-- `chunk_text(text, max_tokens, overlap_tokens)` from
src/temp/chunk_manuscript.py, over the sentence list of the text: each chunk
is the `" ".join` of its sentences. -/
def chunk_text (tc : String → Nat) (sents : List String) (maxT ov : Nat) :
    List String :=
  (chunkUnits tc sents maxT ov).map joinSp

/-- A chunk minus the overlap suffix it carries into its successor. -/
def stripCarried (tc : String → Nat) (ov : Nat) (c : List String) : List String :=
  c.take (c.length - (overlapSuffix tc ov c).length)

/-- The non-overlapping interiors of a chunk list: every chunk except the
last is stripped of the overlap suffix it carried forward; the last chunk is
kept whole. -/
def interiors (tc : String → Nat) (ov : Nat) : List (List String) → List (List String)
  | [] => []
  | [c] => [c]
  | c :: c2 :: rest => stripCarried tc ov c :: interiors tc ov (c2 :: rest)

/-- Constant token counter used in concrete scenarios (every sentence counts
as one token). -/
def tcOne : String → Nat := fun _ => 1

@[simp] lemma sumTc_nil (tc : String → Nat) : sumTc tc [] = 0 := rfl

@[simp] lemma sumTc_cons (tc : String → Nat) (s : String) (l : List String) :
    sumTc tc (s :: l) = tc s + sumTc tc l := by
  simp [sumTc]

@[simp] lemma sumTc_append (tc : String → Nat) (l₁ l₂ : List String) :
    sumTc tc (l₁ ++ l₂) = sumTc tc l₁ + sumTc tc l₂ := by
  simp [sumTc]

@[simp] lemma sumTc_reverse (tc : String → Nat) (l : List String) :
    sumTc tc l.reverse = sumTc tc l := by
  simp [sumTc, List.sum_reverse]

lemma mem_le_sumTc (tc : String → Nat) {u : String} {l : List String}
    (hu : u ∈ l) : tc u ≤ sumTc tc l := by
  induction l with
  | nil => cases hu
  | cons s rest ih =>
    rcases List.mem_cons.mp hu with h | h
    · subst h; simp
    · have := ih h
      simp only [sumTc_cons]
      omega

lemma takeOverlapRev_pre (tc : String → Nat) (ov : Nat) :
    ∀ (l : List String) (acc : Nat), ∃ t, takeOverlapRev tc ov l acc ++ t = l := by
  intro l
  induction l with
  | nil => intro acc; exact ⟨[], rfl⟩
  | cons s rest ih =>
    intro acc
    by_cases h : acc + tc s ≤ ov
    · obtain ⟨t, ht⟩ := ih (acc + tc s)
      exact ⟨t, by simp [takeOverlapRev, h, ht]⟩
    · exact ⟨s :: rest, by simp [takeOverlapRev, h]⟩

lemma overlapSuffix_suffix (tc : String → Nat) (ov : Nat) (c : List String) :
    ∃ t, t ++ overlapSuffix tc ov c = c := by
  obtain ⟨t, ht⟩ := takeOverlapRev_pre tc ov c.reverse 0
  refine ⟨t.reverse, ?_⟩
  have := congrArg List.reverse ht
  simpa [overlapSuffix, List.reverse_append] using this

lemma takeOverlapRev_sum (tc : String → Nat) (ov : Nat) :
    ∀ (l : List String) (acc : Nat), acc ≤ ov →
      acc + sumTc tc (takeOverlapRev tc ov l acc) ≤ ov := by
  intro l
  induction l with
  | nil => intro acc h; simpa [takeOverlapRev]
  | cons s rest ih =>
    intro acc h
    by_cases hs : acc + tc s ≤ ov
    · have := ih (acc + tc s) hs
      simp only [takeOverlapRev, hs, if_true, sumTc_cons]
      omega
    · simpa [takeOverlapRev, hs]

lemma overlapSuffix_sum (tc : String → Nat) (ov : Nat) (c : List String) :
    sumTc tc (overlapSuffix tc ov c) ≤ ov := by
  have := takeOverlapRev_sum tc ov c.reverse 0 (Nat.zero_le ov)
  simpa [overlapSuffix] using this

lemma takeOverlapRev_max (tc : String → Nat) (ov : Nat) :
    ∀ (l : List String) (acc : Nat) (p : List String), (∃ t, p ++ t = l) →
      acc + sumTc tc p ≤ ov → p.length ≤ (takeOverlapRev tc ov l acc).length := by
  intro l
  induction l with
  | nil =>
    intro acc p hp _
    obtain ⟨t, ht⟩ := hp
    have := List.append_eq_nil.mp ht
    simp [this.1]
  | cons s rest ih =>
    intro acc p hp hsum
    obtain ⟨t, ht⟩ := hp
    cases p with
    | nil => simp
    | cons q qs =>
      have hq : q = s := by
        have := congrArg (List.head?) ht
        simpa using this
      subst hq
      have hqs : qs ++ t = rest := by
        simpa using congrArg List.tail ht
      have hfit : acc + tc q ≤ ov := by
        have : tc q ≤ tc q + sumTc tc qs := Nat.le_add_right _ _
        simp only [sumTc_cons] at hsum
        omega
      have hrec : (acc + tc q) + sumTc tc qs ≤ ov := by
        simp only [sumTc_cons] at hsum
        omega
      have := ih (acc + tc q) qs ⟨t, hqs⟩ hrec
      simp only [takeOverlapRev, hfit, if_true, List.length_cons]
      omega

lemma overlapSuffix_max (tc : String → Nat) (ov : Nat) {c s : List String}
    (hs : ∃ t, t ++ s = c) (hsum : sumTc tc s ≤ ov) :
    s.length ≤ (overlapSuffix tc ov c).length := by
  obtain ⟨t, ht⟩ := hs
  have hp : ∃ t', s.reverse ++ t' = c.reverse := by
    refine ⟨t.reverse, ?_⟩
    have := congrArg List.reverse ht
    simpa [List.reverse_append] using this
  have := takeOverlapRev_max tc ov c.reverse 0 s.reverse hp (by simpa using hsum)
  simpa [overlapSuffix] using this

lemma stripCarried_append (tc : String → Nat) (ov : Nat) (c : List String) :
    stripCarried tc ov c ++ overlapSuffix tc ov c = c := by
  obtain ⟨t, ht⟩ := overlapSuffix_suffix tc ov c
  have hlen : c.length - (overlapSuffix tc ov c).length = t.length := by
    have := congrArg List.length ht
    simp only [List.length_append] at this
    omega
  have hstrip : stripCarried tc ov c = t := by
    rw [stripCarried, hlen, ← ht, List.take_left]
  rw [hstrip, ht]

lemma chunkLoop_ne_nil (tc : String → Nat) (maxT ov : Nat) :
    ∀ (sents current : List String) (count : Nat),
      current ≠ [] ∨ sents ≠ [] →
      chunkLoop tc maxT ov sents current count ≠ [] := by
  intro sents
  induction sents with
  | nil =>
    intro current count h
    have hc : current ≠ [] := by
      rcases h with h | h
      · exact h
      · exact absurd rfl h
    simp [chunkLoop, hc]
  | cons s rest ih =>
    intro current count _
    by_cases hcond : count + tc s > maxT ∧ current ≠ []
    · simp [chunkLoop, hcond]
    · simp only [chunkLoop, hcond, if_false]
      exact ih (current ++ [s]) (count + tc s) (Or.inl (by simp))

lemma chunkLoop_head (tc : String → Nat) (maxT ov : Nat) :
    ∀ (sents current : List String) (count : Nat), current ≠ [] →
      ∃ t tl, chunkLoop tc maxT ov sents current count = (current ++ t) :: tl := by
  intro sents
  induction sents with
  | nil =>
    intro current count hc
    exact ⟨[], [], by simp [chunkLoop, hc]⟩
  | cons s rest ih =>
    intro current count hc
    by_cases hcond : count + tc s > maxT ∧ current ≠ []
    · refine ⟨[], chunkLoop tc maxT ov rest (overlapSuffix tc ov current ++ [s])
        (sumTc tc (overlapSuffix tc ov current) + tc s), ?_⟩
      simp [chunkLoop, hcond]
    · obtain ⟨t, tl, ht⟩ := ih (current ++ [s]) (count + tc s) (by simp)
      refine ⟨[s] ++ t, tl, ?_⟩
      simp only [chunkLoop, hcond, if_false]
      rw [ht]
      simp

lemma interiors_chunkLoop_join (tc : String → Nat) (maxT ov : Nat) :
    ∀ (sents current : List String) (count : Nat),
      (interiors tc ov (chunkLoop tc maxT ov sents current count)).flatten =
        current ++ sents := by
  intro sents
  induction sents with
  | nil =>
    intro current count
    by_cases hc : current = []
    · simp [chunkLoop, hc, interiors]
    · simp [chunkLoop, hc, interiors]
  | cons s rest ih =>
    intro current count
    by_cases hcond : count + tc s > maxT ∧ current ≠ []
    · have hstep0 : chunkLoop tc maxT ov (s :: rest) current count =
          current :: chunkLoop tc maxT ov rest (overlapSuffix tc ov current ++ [s])
            (sumTc tc (overlapSuffix tc ov current) + tc s) := by
        simp only [chunkLoop]
        rw [if_pos hcond]
      rw [hstep0]
      have hne : chunkLoop tc maxT ov rest (overlapSuffix tc ov current ++ [s])
          (sumTc tc (overlapSuffix tc ov current) + tc s) ≠ [] :=
        chunkLoop_ne_nil tc maxT ov rest _ _ (Or.inl (by simp))
      obtain ⟨hd, tl, hht⟩ := List.exists_cons_of_ne_nil hne
      rw [hht]
      have hjoin := ih (overlapSuffix tc ov current ++ [s])
        (sumTc tc (overlapSuffix tc ov current) + tc s)
      rw [hht] at hjoin
      have hstep : interiors tc ov (current :: hd :: tl) =
          stripCarried tc ov current :: interiors tc ov (hd :: tl) := rfl
      rw [hstep, List.flatten_cons, hjoin, ← List.append_assoc,
        ← List.append_assoc, stripCarried_append]
      simp
    · simp only [chunkLoop, hcond, if_false]
      rw [ih (current ++ [s]) (count + tc s)]
      simp

lemma sumTc_le_of_suffix (tc : String → Nat) {s c : List String}
    (h : s <:+ c) : sumTc tc s ≤ sumTc tc c := by
  rcases h with ⟨t, rfl⟩
  simp

lemma chunkLoop_chain (tc : String → Nat) (maxT ov : Nat) :
    ∀ (sents current : List String) (count : Nat),
      List.Chain' (fun a b => overlapSuffix tc ov a <+: b)
        (chunkLoop tc maxT ov sents current count) := by
  intro sents
  induction sents with
  | nil =>
    intro current count
    by_cases hc : current = [] <;> simp [chunkLoop, hc]
  | cons s rest ih =>
    intro current count
    by_cases hcond : count + tc s > maxT ∧ current ≠ []
    · have hstep0 : chunkLoop tc maxT ov (s :: rest) current count =
          current :: chunkLoop tc maxT ov rest (overlapSuffix tc ov current ++ [s])
            (sumTc tc (overlapSuffix tc ov current) + tc s) := by
        simp only [chunkLoop]
        rw [if_pos hcond]
      rw [hstep0]
      obtain ⟨t, tl, hht⟩ := chunkLoop_head tc maxT ov rest
        (overlapSuffix tc ov current ++ [s])
        (sumTc tc (overlapSuffix tc ov current) + tc s) (by simp)
      rw [hht, List.chain'_cons]
      constructor
      · exact ⟨[s] ++ t, by simp⟩
      · have := ih (overlapSuffix tc ov current ++ [s])
          (sumTc tc (overlapSuffix tc ov current) + tc s)
        rw [hht] at this
        exact this
    · simp only [chunkLoop, hcond, if_false]
      exact ih (current ++ [s]) (count + tc s)

lemma chunkLoop_dropLast_le (tc : String → Nat) (maxT ov : Nat) (hov : ov ≤ maxT) :
    ∀ (sents current : List String),
      (∀ u ∈ current.dropLast, tc u ≤ maxT) →
      ∀ c ∈ chunkLoop tc maxT ov sents current (sumTc tc current),
        ∀ u ∈ c.dropLast, tc u ≤ maxT := by
  intro sents
  induction sents with
  | nil =>
    intro current hcur c hc
    by_cases h : current = []
    · simp [chunkLoop, h] at hc
    · simp only [chunkLoop, h, if_false, List.mem_singleton, if_neg] at hc
      subst hc
      exact hcur
  | cons s rest ih =>
    intro current hcur c hc
    by_cases hcond : sumTc tc current + tc s > maxT ∧ current ≠ []
    · have hstep0 : chunkLoop tc maxT ov (s :: rest) current (sumTc tc current) =
          current :: chunkLoop tc maxT ov rest (overlapSuffix tc ov current ++ [s])
            (sumTc tc (overlapSuffix tc ov current) + tc s) := by
        simp only [chunkLoop]
        rw [if_pos hcond]
      rw [hstep0] at hc
      rcases List.mem_cons.mp hc with h | h
      · subst h
        exact hcur
      · have hcount : sumTc tc (overlapSuffix tc ov current) + tc s =
            sumTc tc (overlapSuffix tc ov current ++ [s]) := by
          simp [sumTc]
        rw [hcount] at h
        refine ih (overlapSuffix tc ov current ++ [s]) ?_ c h
        intro u hu
        rw [List.dropLast_concat] at hu
        have h1 : tc u ≤ sumTc tc (overlapSuffix tc ov current) :=
          mem_le_sumTc tc hu
        have h2 := overlapSuffix_sum tc ov current
        omega
    · simp only [chunkLoop, hcond, if_false] at hc
      have hcount : sumTc tc current + tc s = sumTc tc (current ++ [s]) := by
        simp [sumTc]
      rw [hcount] at hc
      refine ih (current ++ [s]) ?_ c hc
      intro u hu
      rw [List.dropLast_concat] at hu
      rcases Decidable.not_and_iff_or_not.mp hcond with h | h
      · push_neg at h
        have h1 : tc u ≤ sumTc tc current := mem_le_sumTc tc hu
        omega
      · push_neg at h
        subst h
        cases hu

/-- C3: the claim states that `chunk_text` fails with `InvalidBudget` and
produces no segments whenever `overlapTokens ≥ maxTokens` or a budget is
non-positive.  Counterexample: with `max_tokens = overlap_tokens = 5`
(`overlap_tokens ≥ max_tokens`) the code performs no validation at all,
does not fail, and returns one (non-empty) segment. -/
theorem c3_counterexample :
    chunkUnits tcOne ["a", "b"] 5 5 = [["a", "b"]] ∧
      chunkUnits tcOne ["a", "b"] 5 5 ≠ [] := by
  decide

/-- C3 (amended): `chunk_text` performs no validation of its budgets.  For
every token counter and every pair of budgets — including
`overlapTokens ≥ maxTokens` and zero budgets — it runs without failure, and
a non-empty input always yields at least one segment. -/
theorem c3_amended (tc : String → Nat) (sents : List String) (maxT ov : Nat)
    (h : sents ≠ []) : chunkUnits tc sents maxT ov ≠ [] :=
  chunkLoop_ne_nil tc maxT ov sents [] 0 (Or.inr h)

/-- Witness for `c3_amended` at a concrete invalid budget (`maxT = ov = 0`). -/
theorem c3_amended_witness :
    (["a"] : List String) ≠ [] ∧ chunkUnits tcOne ["a"] 0 0 ≠ [] :=
  ⟨by decide, c3_amended tcOne ["a"] 0 0 (by decide)⟩

/-- C4: for every input (modelled as its list of atomic sentence units, the
output of the external NLTK `sent_tokenize`) and every valid budget,
concatenating the segments' non-overlapping interiors — each segment minus
the overlap suffix it carried into its successor — reconstructs the source
exactly: every unit is recovered, in order, with no loss. -/
theorem c4_coverage (tc : String → Nat) (sents : List String) (maxT ov : Nat)
    (hmax : 0 < maxT) (hov : 0 < ov) (hlt : ov < maxT) :
    (interiors tc ov (chunkUnits tc sents maxT ov)).flatten = sents := by
  have := interiors_chunkLoop_join tc maxT ov sents [] 0
  simpa [chunkUnits] using this

/-- Witness for `c4_coverage` at a concrete input and valid budget. -/
theorem c4_coverage_witness :
    (0 : Nat) < 2 ∧ (0 : Nat) < 1 ∧ 1 < 2 ∧
      (interiors tcOne 1 (chunkUnits tcOne ["a", "b", "c"] 2 1)).flatten =
        ["a", "b", "c"] :=
  ⟨by decide, by decide, by decide,
    c4_coverage tcOne ["a", "b", "c"] 2 1 (by decide) (by decide) (by decide)⟩

/-- C6: in the produced segmentation, each segment is followed by a segment
that begins with exactly the overlap carried forward (`overlapSuffix`), and
for every chunk the carried-forward overlap is a suffix of its units in
original order, its token count is at most `ov`, and it is maximal: any
suffix whose token count fits within `ov` is no longer — and no heavier —
than the carried one. -/
theorem c6_overlap (tc : String → Nat) (sents : List String) (maxT ov : Nat) :
    List.Chain' (fun a b => overlapSuffix tc ov a <+: b)
        (chunkUnits tc sents maxT ov)
    ∧ ∀ c : List String,
        overlapSuffix tc ov c <:+ c
        ∧ sumTc tc (overlapSuffix tc ov c) ≤ ov
        ∧ ∀ s : List String, s <:+ c → sumTc tc s ≤ ov →
            s.length ≤ (overlapSuffix tc ov c).length
            ∧ sumTc tc s ≤ sumTc tc (overlapSuffix tc ov c) := by
  refine ⟨chunkLoop_chain tc maxT ov sents [] 0, ?_⟩
  intro c
  refine ⟨overlapSuffix_suffix tc ov c, overlapSuffix_sum tc ov c, ?_⟩
  intro s hs hsum
  have hlen := overlapSuffix_max tc ov hs hsum
  refine ⟨hlen, ?_⟩
  have hsub : s <:+ overlapSuffix tc ov c :=
    List.suffix_of_suffix_length_le hs (overlapSuffix_suffix tc ov c) hlen
  exact sumTc_le_of_suffix tc hsub

/-- Witness for `c6_overlap`: the inner maximality statement applied to a
concrete segment and suffix. -/
theorem c6_overlap_witness :
    (["c"] : List String) <:+ ["b", "c"] ∧ sumTc tcOne ["c"] ≤ 1 ∧
      (["c"] : List String).length ≤ (overlapSuffix tcOne 1 ["b", "c"]).length :=
  ⟨⟨["b"], rfl⟩, by decide,
    (((c6_overlap tcOne ["a", "b", "c"] 5 1).2 ["b", "c"]).2.2 ["c"]
      ⟨["b"], rfl⟩ (by decide)).1⟩

/-- C8: the claim states that an oversized sentence is placed into a segment
*alone* (a one-unit segment) and that the occurrence is counted.
Counterexample: with character-length token counts, budget 10 and overlap 3,
the oversized sentence (23 tokens > 10) lands in the two-unit segment
`["ab", oversized]` together with the carried overlap — not alone — and
`chunk_text` maintains no counter of oversized sentences. -/
theorem c8_counterexample :
    (chunkUnits String.length ["ab", "thisisaverylongsentence", "cd"] 10 3)[1]? =
        some ["ab", "thisisaverylongsentence"]
      ∧ 10 < String.length "thisisaverylongsentence" := by
  decide

/-- C8 (amended): an oversized atomic unit is never dropped, truncated or an
error: coverage still holds (first conjunct), and every unit of a segment
other than its final unit fits the budget — so an oversized unit is always
the final unit of its segment, preceded only by the carried overlap, and is
alone exactly when no overlap was carried.  The code does not count these
occurrences. -/
theorem c8_amended (tc : String → Nat) (sents : List String) (maxT ov : Nat)
    (hov : ov ≤ maxT) :
    (interiors tc ov (chunkUnits tc sents maxT ov)).flatten = sents
    ∧ ∀ c ∈ chunkUnits tc sents maxT ov, ∀ u ∈ c.dropLast, tc u ≤ maxT := by
  constructor
  · have := interiors_chunkLoop_join tc maxT ov sents [] 0
    simpa [chunkUnits] using this
  · have h0 : (0 : Nat) = sumTc tc [] := rfl
    intro c hc
    refine chunkLoop_dropLast_le tc maxT ov hov sents [] (by simp) c ?_
    simpa [chunkUnits] using hc

/-- Witness for `c8_amended` at the oversized-sentence input. -/
theorem c8_amended_witness :
    (3 : Nat) ≤ 10 ∧
      (interiors String.length 3
          (chunkUnits String.length ["ab", "thisisaverylongsentence", "cd"] 10 3)).flatten =
        ["ab", "thisisaverylongsentence", "cd"] :=
  ⟨by decide,
    (c8_amended String.length ["ab", "thisisaverylongsentence", "cd"] 10 3
      (by decide)).1⟩

/-- C9: twelve sentences of one token each, `maxTokens = 5` (exactly five
sentences fit) and `overlapTokens = 1` (exactly one sentence fits) produce
exactly three segments, and segments two and three each begin with the last
sentence of the previous segment (`a5` and `a9`). -/
theorem c9_scenario (a1 a2 a3 a4 a5 a6 a7 a8 a9 a10 a11 a12 : String) :
    chunkUnits tcOne [a1, a2, a3, a4, a5, a6, a7, a8, a9, a10, a11, a12] 5 1 =
      [[a1, a2, a3, a4, a5], [a5, a6, a7, a8, a9], [a9, a10, a11, a12]] := by
  simp [chunkUnits, chunkLoop, overlapSuffix, takeOverlapRev, sumTc, tcOne]

/-!
### The parallel improvement pipeline

`ManuscriptProcessor.process_chunks` (src/manuscript.py lines 120-258).
The improved-chunks directory is modelled as a function
`improved : Nat → Option String` from the 1-based chunk number to the
contents of `chunk_{i:04d}.txt` if that file exists.  The Bedrock flow
invocation of `_process_single_chunk` is the opaque per-segment transform
`transform : Nat → String → Option String` (`none` = the flow call raised or
returned no `final_revision`, so the function returns `False` and writes
nothing).  The model keeps the observables the claims are about: which
chunks are dispatched, the improved files after the run, the final
reassembled manuscript (written only when `success_count > 0`), the phase
written to the state table, and the boolean result.  Logging and the
DynamoDB edit/progress writes are elided; the early `return False` guards
for missing config/metadata/assessment files are outside the modelled
scenario (all inputs present). -/

structure RunOutcome where
  calls : List Nat
  improvedAfter : Nat → Option String
  finalText : Option String
  phaseSet : Option String
  success : Bool

/-- The dispatch filter of `process_chunks` lines 192-209: chunk numbers
`1..n` whose improved file does not already exist (`os.path.isfile` check;
existing ones are skipped). -/
def pendingChunks (improved : Nat → Option String) (n : Nat) : List Nat :=
  (List.range n).filterMap (fun i => if improved (i + 1) = none then some (i + 1) else none)

/-- `_process_single_chunk` for chunk number `i`: read the original chunk
file, invoke the flow; `none` means the attempt failed and no improved file
is written. -/
def runChunk (transform : Nat → String → Option String) (chunkTexts : List String)
    (i : Nat) : Option String :=
  match chunkTexts[i - 1]? with
  | none => none
  | some txt => transform i txt

/-- Writing (or not) the improved file for chunk `i` after one attempt. -/
def writeImproved (improved : Nat → Option String) (i : Nat) (r : Option String) :
    Nat → Option String :=
  match r with
  | some t => fun j => if j = i then some t else improved j
  | none => improved

/-- The reassembly loop of `process_chunks` lines 222-232: iterate chunk
numbers `1..n` in order; write the improved text followed by a blank-line
separator when the improved file exists, and nothing (only a log warning)
when it does not. -/
def reassemble (improved : Nat → Option String) (n : Nat) : String :=
  String.join ((List.range n).map (fun i =>
    match improved (i + 1) with
    | some t => t ++ "\n\n"
    | none => ""))

/-- `ManuscriptProcessor.process_chunks`: skip chunks whose improved file
exists, run the transform on the rest, then — only if at least one chunk of
this run succeeded — write the reassembled manuscript and set the phase to
`finalization`; otherwise return failure. -/
def process_chunks (chunkTexts : List String) (improved : Nat → Option String)
    (transform : Nat → String → Option String) : RunOutcome :=
  let n := chunkTexts.length
  let tasks := pendingChunks improved n
  let results := tasks.map (fun i => (i, runChunk transform chunkTexts i))
  let improvedA := results.foldl (fun acc pr => writeImproved acc pr.1 pr.2) improved
  let successCount := (results.filter (fun pr => pr.2.isSome)).length
  if 0 < successCount then
    { calls := tasks
      improvedAfter := improvedA
      finalText := some (reassemble improvedA n)
      phaseSet := some "finalization"
      success := true }
  else
    { calls := tasks
      improvedAfter := improvedA
      finalText := none
      phaseSet := none
      success := false }

/-- The texts reassembly actually emits: the improved texts that exist, in
index order. -/
def presentTexts (improved : Nat → Option String) (n : Nat) : List String :=
  (List.range n).filterMap (fun i => improved (i + 1))

/-- A transform that succeeds on every chunk, producing `rev i text`. -/
def totalTransform (rev : Nat → String → String) : Nat → String → Option String :=
  fun i s => some (rev i s)

/-- A transform that succeeds exactly on the chunk numbers selected by `S`
(an interrupted first run). -/
def partialTransform (rev : Nat → String → String) (S : Nat → Bool) :
    Nat → String → Option String :=
  fun i s => if S i then some (rev i s) else none

/-- First (interrupted) run: starts from an empty improved directory, the
transform succeeds only on the chunks selected by `S`. -/
def firstRun (chunkTexts : List String) (rev : Nat → String → String)
    (S : Nat → Bool) : RunOutcome :=
  process_chunks chunkTexts (fun _ => none) (partialTransform rev S)

/-- Second run: sees the improved files persisted by the first run, and the
transform now succeeds everywhere. -/
def secondRun (chunkTexts : List String) (rev : Nat → String → String)
    (S : Nat → Bool) : RunOutcome :=
  process_chunks chunkTexts (firstRun chunkTexts rev S).improvedAfter
    (totalTransform rev)

/-- One uninterrupted run: empty improved directory, the transform succeeds
everywhere. -/
def uninterruptedRun (chunkTexts : List String) (rev : Nat → String → String) :
    RunOutcome :=
  process_chunks chunkTexts (fun _ => none) (totalTransform rev)

/-!
### Project state updates

`DynamoDBManager.update_project_metadata` (src/dynamo.py lines 149-187).
The state row is an attribute map `String → Option String`; the method
builds `SET updated_at = :updated_at, k1 = :k1, ...` from the `updates`
dict and applies it unconditionally (the current phase is never read). -/

def update_project_metadata (st : String → Option String)
    (updates : List (String × String)) (ts : String) : String → Option String :=
  fun k =>
    match updates.lookup k with
    | some v => some v
    | none => if k = "updated_at" then some ts else st k

/-!
### The chapter-integrity second pass

`preserve_chapter_integrity` (src/temp/chunk_manuscript.py lines 93-127).
`detect_chapters` is a set of regex searches over the source text; it is
modelled by its output, the position-sorted list `markers` of
`(offset, matched text)` pairs.  Python list indexing / `pop` can raise
`IndexError`, so the pass returns `Option`: `none` means the Python code
raises.  `current_pos += chunk_len - overlap_tokens_length` mixes signed
arithmetic, so positions are `Int`.  The float guards
`pos_in_chunk > len(chunk) * 0.7` and `len1 + len2 < max_tokens * 1.3` are
modelled exactly over the rationals as `10 * pos > 7 * len` and
`10 * (len1 + len2) < 13 * max_tokens`. -/

/-- Lines 100-107: map each chapter marker to the chunk whose running span
(net of the approximate overlap length) contains its offset, recording the
0-based chunk index and the offset within the chunk. -/
def chapterPositionsGo (markers : List (Int × String)) (overlapLen : Int) :
    List String → Nat → Int → List (Nat × Int × String)
  | [], _, _ => []
  | chunk :: rest, i, curPos =>
    (markers.filterMap (fun pm =>
        if curPos ≤ pm.1 ∧ pm.1 < curPos + (chunk.length : Int) then
          some (i, pm.1 - curPos, pm.2)
        else none))
      ++ chapterPositionsGo markers overlapLen rest (i + 1)
          (curPos + (chunk.length : Int) - overlapLen)

/-- One iteration `i` of the merge loop (lines 113-125).  All guards read
the *original* `chunks` list; assignments and `pop` hit the mutated
`modified` list, whose bounds must be checked (`none` = `IndexError`). -/
def mergeStep (chunks : List String) (maxT : Int)
    (st : List String × List (Nat × Int × String)) (i : Nat) :
    Option (List String × List (Nat × Int × String)) :=
  match st.2[i]? with
  | none => none
  | some (chunkIdx, posInChunk, _) =>
    match chunks[chunkIdx]? with
    | none => none
    | some c =>
      if 10 * posInChunk > 7 * (c.length : Int) then
        if chunkIdx + 1 < chunks.length then
          match chunks[chunkIdx + 1]? with
          | none => none
          | some c2 =>
            if 10 * ((c.length : Int) + (c2.length : Int)) < 13 * maxT then
              if chunkIdx < st.1.length then
                if chunkIdx + 1 < (st.1.set chunkIdx (c ++ c2)).length then
                  some ((st.1.set chunkIdx (c ++ c2)).eraseIdx (chunkIdx + 1),
                    st.2.map (fun e =>
                      (if e.1 ≤ chunkIdx then e.1 else e.1 - 1, e.2.1, e.2.2)))
                else none
              else none
            else some st
        else some st
      else some st

/-- `preserve_chapter_integrity(text, chunks, overlap_tokens_length,
max_tokens)` with the detected chapter markers passed explicitly.  Returns
`none` when the Python code raises `IndexError`. -/
def preserve_chapter_integrity (markers : List (Int × String))
    (chunks : List String) (overlapLen : Int) (maxT : Int) :
    Option (List String) :=
  if markers = [] then some chunks
  else
    let positions := chapterPositionsGo markers overlapLen chunks 0 0
    ((List.range (positions.length - 1)).foldlM
        (mergeStep chunks maxT) (chunks, positions)).map Prod.fst

/-!
### Chunk text lookup

`ManuscriptProcessor.get_chunk_text` (src/manuscript.py lines 532-563).
`improved` is the contents of `{project}_improved/{chunk_id}.txt` if that
file exists; `metadata` is the parsed metadata file if it exists, with
`chunk_files` mapped to the contents of each listed original chunk file
(`none` = the listed file is missing).  The regex search
`chunk_0*(\d+)` over the chunk id is implemented character-for-character:
the first occurrence of `chunk_` followed by at least one digit yields the
numeric value of that digit run. -/

/-- Numeric value of a digit run. -/
def digitsVal (l : List Char) : Nat :=
  l.foldl (fun a c => 10 * a + (c.toNat - 48)) 0

/-- `re.search(r'chunk_0*(\d+)', chunk_id)`: scan left to right for
`chunk_` followed by a digit; return the value of the maximal digit run
(leading zeros do not change the value the regex group converts to). -/
def findChunkNum : List Char → Option Nat
  | [] => none
  | c :: rest =>
    if ("chunk_".toList).isPrefixOf (c :: rest) then
      let ds := ((c :: rest).drop 6).takeWhile Char.isDigit
      if ds.isEmpty then findChunkNum rest else some (digitsVal ds)
    else findChunkNum rest

/-- `get_chunk_text`: improved file first; otherwise fall back to the
original chunk file listed in the metadata under the extracted 1-based
chunk number; otherwise `None`. -/
def get_chunk_text (improved : Option String)
    (metadata : Option (List (Option String))) (chunkId : String) :
    Option String :=
  match improved with
  | some t => some t
  | none =>
    match metadata with
    | none => none
    | some chunkFiles =>
      match findChunkNum chunkId.toList with
      | none => none
      | some num =>
        if 0 < num ∧ num ≤ chunkFiles.length then
          match chunkFiles[num - 1]? with
          | some (some txt) => some txt
          | _ => none
        else none

lemma mem_pendingChunks (improved : Nat → Option String) (n i : Nat) :
    i ∈ pendingChunks improved n ↔ 1 ≤ i ∧ i ≤ n ∧ improved i = none := by
  simp only [pendingChunks, List.mem_filterMap, List.mem_range]
  constructor
  · rintro ⟨a, ha, hif⟩
    by_cases h : improved (a + 1) = none
    · rw [if_pos h] at hif
      obtain rfl : a + 1 = i := Option.some.inj hif
      exact ⟨by omega, by omega, h⟩
    · rw [if_neg h] at hif
      cases hif
  · rintro ⟨h1, h2, h3⟩
    refine ⟨i - 1, by omega, ?_⟩
    have : i - 1 + 1 = i := by omega
    rw [this, if_pos h3]

lemma foldl_writeImproved (f : Nat → Option String) :
    ∀ (tasks : List Nat) (improved : Nat → Option String) (j : Nat),
      ((tasks.map (fun i => (i, f i))).foldl
          (fun acc pr => writeImproved acc pr.1 pr.2) improved) j =
        if j ∈ tasks ∧ (f j).isSome then f j else improved j := by
  intro tasks
  induction tasks with
  | nil =>
    intro improved j
    simp
  | cons i rest ih =>
    intro improved j
    simp only [List.map_cons, List.foldl_cons]
    rw [ih]
    by_cases hmem : j ∈ rest ∧ (f j).isSome
    · rw [if_pos hmem, if_pos ⟨List.mem_cons_of_mem i hmem.1, hmem.2⟩]
    · rw [if_neg hmem]
      by_cases hji : j = i
      · subst hji
        cases hfi : f j with
        | some t =>
          rw [if_pos ⟨List.mem_cons_self j rest, rfl⟩]
          simp [writeImproved]
        | none =>
          rw [if_neg (by rintro ⟨-, h⟩; cases h)]
          simp [writeImproved]
      · have hcond : ¬(j ∈ i :: rest ∧ (f j).isSome) := by
          rintro ⟨hm, hs⟩
          rcases List.mem_cons.mp hm with h | h
          · exact hji h
          · exact hmem ⟨h, hs⟩
        rw [if_neg hcond]
        cases hfi : f i with
        | some t => simp [writeImproved, hfi, hji]
        | none => simp [writeImproved, hfi]

lemma filter_length_pos {α : Type} (p : α → Bool) (l : List α) :
    0 < (l.filter p).length ↔ ∃ a ∈ l, p a := by
  rw [List.length_pos]
  constructor
  · intro h
    obtain ⟨a, ha⟩ := List.exists_mem_of_ne_nil _ h
    exact ⟨a, List.mem_of_mem_filter ha, List.of_mem_filter ha⟩
  · rintro ⟨a, ha, hp⟩ hnil
    have : a ∈ l.filter p := List.mem_filter.mpr ⟨ha, hp⟩
    rw [hnil] at this
    cases this

lemma process_chunks_calls (c : List String) (imp : Nat → Option String)
    (t : Nat → String → Option String) :
    (process_chunks c imp t).calls = pendingChunks imp c.length := by
  simp only [process_chunks]
  split <;> rfl

lemma process_chunks_improvedAfter (c : List String) (imp : Nat → Option String)
    (t : Nat → String → Option String) (j : Nat) :
    (process_chunks c imp t).improvedAfter j =
      if j ∈ pendingChunks imp c.length ∧ (runChunk t c j).isSome
      then runChunk t c j else imp j := by
  have h : (process_chunks c imp t).improvedAfter =
      ((pendingChunks imp c.length).map (fun i => (i, runChunk t c i))).foldl
        (fun acc pr => writeImproved acc pr.1 pr.2) imp := by
    simp only [process_chunks]
    split <;> rfl
  rw [h, foldl_writeImproved]

lemma process_chunks_success_iff (c : List String) (imp : Nat → Option String)
    (t : Nat → String → Option String) :
    (process_chunks c imp t).success = true ↔
      ∃ i ∈ pendingChunks imp c.length, (runChunk t c i).isSome := by
  simp only [process_chunks]
  split <;> rename_i hcond
  · refine iff_of_true rfl ?_
    rw [filter_length_pos] at hcond
    obtain ⟨pr, hpr, hp⟩ := hcond
    obtain ⟨i, hi, rfl⟩ := List.mem_map.mp hpr
    exact ⟨i, hi, hp⟩
  · refine iff_of_false (by simp) ?_
    rintro ⟨i, hi, hp⟩
    apply hcond
    rw [filter_length_pos]
    exact ⟨(i, runChunk t c i), List.mem_map.mpr ⟨i, hi, rfl⟩, hp⟩

lemma process_chunks_finalText (c : List String) (imp : Nat → Option String)
    (t : Nat → String → Option String) :
    (process_chunks c imp t).finalText =
      if (process_chunks c imp t).success
      then some (reassemble (process_chunks c imp t).improvedAfter c.length)
      else none := by
  simp only [process_chunks]
  split <;> rfl

lemma join_append (l1 l2 : List String) :
    String.join (l1 ++ l2) = String.join l1 ++ String.join l2 := by
  apply String.ext
  simp

lemma join_singleton (s : String) : String.join [s] = s := by
  apply String.ext
  simp

lemma reassemble_congr (f g : Nat → Option String) (n : Nat)
    (h : ∀ i, i < n → f (i + 1) = g (i + 1)) :
    reassemble f n = reassemble g n := by
  unfold reassemble
  congr 1
  apply List.map_congr_left
  intro i hi
  rw [h i (List.mem_range.mp hi)]

lemma reassemble_eq_presentTexts (imp : Nat → Option String) (n : Nat) :
    reassemble imp n =
      String.join ((presentTexts imp n).map (fun t => t ++ "\n\n")) := by
  induction n with
  | zero => rfl
  | succ m ih =>
    cases h : imp (m + 1) with
    | some t =>
      have hL : reassemble imp (m + 1) = reassemble imp m ++ (t ++ "\n\n") := by
        unfold reassemble
        rw [List.range_succ, List.map_append, join_append]
        simp [h, join_singleton]
      have hR : presentTexts imp (m + 1) = presentTexts imp m ++ [t] := by
        unfold presentTexts
        rw [List.range_succ, List.filterMap_append]
        simp [h]
      rw [hL, hR, ih, List.map_append, join_append]
      simp [join_singleton]
    | none =>
      have hL : reassemble imp (m + 1) = reassemble imp m := by
        unfold reassemble
        rw [List.range_succ, List.map_append, join_append]
        simp [h, join_singleton, String.append_empty]
      have hR : presentTexts imp (m + 1) = presentTexts imp m := by
        unfold presentTexts
        rw [List.range_succ, List.filterMap_append]
        simp [h]
      rw [hL, hR, ih]

/-- C1: the claim states that reassembly fails with `IncompleteManuscript`
naming the first index with no succeeded result and never concatenates a
document omitting a missing revision.  Counterexample: three chunks, chunk 1
already improved (`"A"`), the transform succeeds only for chunk 3 (`"C"`)
and fails for chunk 2; `process_chunks` reports success and writes the
concatenation `"A\n\nC\n\n"`, silently omitting chunk 2. -/
theorem c1_counterexample :
    (process_chunks ["x", "y", "z"] (fun j => if j = 1 then some "A" else none)
        (fun i _ => if i = 3 then some "C" else none)).success = true
    ∧ (process_chunks ["x", "y", "z"] (fun j => if j = 1 then some "A" else none)
        (fun i _ => if i = 3 then some "C" else none)).finalText =
      some "A\n\nC\n\n" := by
  decide

/-- C1 (amended): reassembly iterates chunk numbers `1..N` in order and
concatenates exactly the improved texts whose files exist, each followed by
a blank-line separator, silently omitting (with only a log warning) every
index that has no improved file; there is no `IncompleteManuscript` failure.
The final manuscript is written only when at least one chunk succeeded in
the current run; otherwise the run returns failure and writes nothing. -/
theorem c1_amended (chunkTexts : List String) (improved : Nat → Option String)
    (transform : Nat → String → Option String) :
    (process_chunks chunkTexts improved transform).finalText =
      if (process_chunks chunkTexts improved transform).success then
        some (String.join ((presentTexts
          (process_chunks chunkTexts improved transform).improvedAfter
          chunkTexts.length).map (fun t => t ++ "\n\n")))
      else none := by
  rw [process_chunks_finalText, reassemble_eq_presentTexts]

/-- C2: the claim states that only the forward transitions
`assessment → improvement → finalization → complete` are ever applied and
any other request fails with `InvalidTransition`, leaving the stored state
unchanged.  Counterexample: from a state whose phase is `complete`,
`update_project_metadata` applies the regression to `assessment` without
any check and persists it. -/
theorem c2_counterexample :
    update_project_metadata
        (fun k => if k = "current_phase" then some "complete" else none)
        [("current_phase", "assessment")] "2024-01-01T00:00:00Z"
        "current_phase" = some "assessment"
    ∧ update_project_metadata
        (fun k => if k = "current_phase" then some "complete" else none)
        [("current_phase", "assessment")] "2024-01-01T00:00:00Z"
        "current_phase" ≠ some "complete" := by
  constructor
  · rfl
  · decide

/-- C2 (amended): no transition validation exists.
`update_project_metadata` unconditionally applies whatever attribute values
the caller requests — including any `current_phase` value from any current
phase, regressions included — and refreshes `updated_at`; attributes not
mentioned in the update are left unchanged.  (The pipeline steps likewise
write their target phases without ever reading the current phase.) -/
theorem c2_amended (st : String → Option String) (updates : List (String × String))
    (ts p : String) (h : updates.lookup "current_phase" = some p) :
    update_project_metadata st updates ts "current_phase" = some p
    ∧ ∀ k, updates.lookup k = none → k ≠ "updated_at" →
        update_project_metadata st updates ts k = st k := by
  constructor
  · simp [update_project_metadata, h]
  · intro k h1 h2
    simp [update_project_metadata, h1, h2]

/-- Witness for `c2_amended` at concrete values. -/
theorem c2_amended_witness :
    ([("current_phase", "assessment")] : List (String × String)).lookup
        "current_phase" = some "assessment"
    ∧ update_project_metadata (fun _ => none)
        [("current_phase", "assessment")] "2024-01-01T00:00:00Z"
        "current_phase" = some "assessment" :=
  ⟨by decide,
    (c2_amended (fun _ => none) [("current_phase", "assessment")]
      "2024-01-01T00:00:00Z" "assessment" (by decide)).1⟩

/-- C5: the claim states that a re-run always completes safely and never
turns an already-completed project into a failed run.  Counterexample: after
a fully successful run on a one-chunk project, running `process_chunks`
again finds every improved file present, dispatches nothing, counts zero
successes and returns failure. -/
theorem c5_counterexample :
    (firstRun ["alpha"] (fun _ s => s ++ "!") (fun _ => true)).success = true
    ∧ (secondRun ["alpha"] (fun _ s => s ++ "!") (fun _ => true)).success = false := by
  decide

/-- C5 (amended): the second run dispatches no transform call for any chunk
whose improved file already exists, and — provided at least one chunk is
still outstanding — it succeeds and yields exactly the final reassembled
text of one uninterrupted run.  (Without that proviso the claim fails: a
re-run with nothing outstanding returns failure, see the counterexample.) -/
theorem c5_amended (chunkTexts : List String) (rev : Nat → String → String)
    (S : Nat → Bool) (h : ∃ i, i < chunkTexts.length ∧ S (i + 1) = false) :
    (∀ i ∈ (secondRun chunkTexts rev S).calls,
        (firstRun chunkTexts rev S).improvedAfter i = none)
    ∧ (secondRun chunkTexts rev S).success = true
    ∧ (secondRun chunkTexts rev S).finalText =
        (uninterruptedRun chunkTexts rev).finalText := by
  obtain ⟨i0, hi0, hS0⟩ := h
  simp only [secondRun, firstRun, uninterruptedRun]
  have hget : ∀ j : Nat, 1 ≤ j → j ≤ chunkTexts.length →
      ∃ s, chunkTexts[j - 1]? = some s := by
    intro j h1 h2
    have hj : j - 1 < chunkTexts.length := by omega
    exact ⟨chunkTexts[j - 1], List.getElem?_eq_getElem hj⟩
  have hrunTotal : ∀ (j : Nat) (s : String), chunkTexts[j - 1]? = some s →
      runChunk (totalTransform rev) chunkTexts j = some (rev j s) := by
    intro j s hs
    simp [runChunk, hs, totalTransform]
  have hrunPartial : ∀ (j : Nat) (s : String), chunkTexts[j - 1]? = some s →
      runChunk (partialTransform rev S) chunkTexts j =
        if S j then some (rev j s) else none := by
    intro j s hs
    simp only [runChunk, hs, partialTransform]
  have hAval : ∀ j : Nat, 1 ≤ j → j ≤ chunkTexts.length →
      ∀ s, chunkTexts[j - 1]? = some s →
      (process_chunks chunkTexts (fun _ => none)
          (partialTransform rev S)).improvedAfter j =
        if S j then some (rev j s) else none := by
    intro j h1 h2 s hs
    rw [process_chunks_improvedAfter, hrunPartial _ _ hs]
    cases hSj : S j with
    | false => simp
    | true =>
      have hmem : j ∈ pendingChunks (fun _ : Nat => none) chunkTexts.length :=
        (mem_pendingChunks _ _ _).mpr ⟨h1, h2, rfl⟩
      rw [if_pos ⟨hmem, rfl⟩]
  refine ⟨?_, ?_, ?_⟩
  · intro i hi
    rw [process_chunks_calls] at hi
    exact ((mem_pendingChunks _ _ _).mp hi).2.2
  · obtain ⟨s0, hs0⟩ := hget (i0 + 1) (by omega) (by omega)
    have hA0 : (process_chunks chunkTexts (fun _ => none)
        (partialTransform rev S)).improvedAfter (i0 + 1) = none := by
      rw [hAval (i0 + 1) (by omega) (by omega) s0 hs0, hS0]
      simp
    have hpend2 : (i0 + 1) ∈ pendingChunks
        ((process_chunks chunkTexts (fun _ => none)
          (partialTransform rev S)).improvedAfter) chunkTexts.length :=
      (mem_pendingChunks _ _ _).mpr ⟨by omega, by omega, hA0⟩
    rw [process_chunks_success_iff]
    exact ⟨i0 + 1, hpend2, by rw [hrunTotal _ _ hs0]; rfl⟩
  · obtain ⟨s0, hs0⟩ := hget (i0 + 1) (by omega) (by omega)
    have hA0 : (process_chunks chunkTexts (fun _ => none)
        (partialTransform rev S)).improvedAfter (i0 + 1) = none := by
      rw [hAval (i0 + 1) (by omega) (by omega) s0 hs0, hS0]
      simp
    have hsucc2 : (process_chunks chunkTexts
        ((process_chunks chunkTexts (fun _ => none)
          (partialTransform rev S)).improvedAfter)
        (totalTransform rev)).success = true := by
      rw [process_chunks_success_iff]
      refine ⟨i0 + 1, (mem_pendingChunks _ _ _).mpr ⟨by omega, by omega, hA0⟩, ?_⟩
      rw [hrunTotal _ _ hs0]
      rfl
    have hsuccU : (process_chunks chunkTexts (fun _ => none)
        (totalTransform rev)).success = true := by
      rw [process_chunks_success_iff]
      refine ⟨i0 + 1, (mem_pendingChunks _ _ _).mpr ⟨by omega, by omega, rfl⟩, ?_⟩
      rw [hrunTotal _ _ hs0]
      rfl
    have himpEq : ∀ j : Nat, j < chunkTexts.length →
        (process_chunks chunkTexts
            ((process_chunks chunkTexts (fun _ => none)
              (partialTransform rev S)).improvedAfter)
            (totalTransform rev)).improvedAfter (j + 1) =
          (process_chunks chunkTexts (fun _ => none)
            (totalTransform rev)).improvedAfter (j + 1) := by
      intro j hj
      obtain ⟨s, hs⟩ := hget (j + 1) (by omega) (by omega)
      have htot := hrunTotal (j + 1) s hs
      have hU : (j + 1) ∈ pendingChunks (fun _ : Nat => none) chunkTexts.length :=
        (mem_pendingChunks _ _ _).mpr ⟨by omega, by omega, rfl⟩
      have hA := hAval (j + 1) (by omega) (by omega) s hs
      have hRHS : (process_chunks chunkTexts (fun _ => none)
          (totalTransform rev)).improvedAfter (j + 1) = some (rev (j + 1) s) := by
        rw [process_chunks_improvedAfter, htot, if_pos ⟨hU, rfl⟩]
      rw [hRHS, process_chunks_improvedAfter, htot]
      cases hSj : S (j + 1) with
      | true =>
        rw [hSj, if_pos rfl] at hA
        split
        · rfl
        · exact hA
      | false =>
        rw [hSj, if_neg (by simp)] at hA
        rw [if_pos ⟨(mem_pendingChunks _ _ _).mpr ⟨by omega, by omega, hA⟩, rfl⟩]
    rw [process_chunks_finalText, process_chunks_finalText, hsucc2, hsuccU]
    simp only [if_true]
    congr 1
    apply reassemble_congr
    exact himpEq

/-- Witness for `c5_amended`: two chunks, the first run succeeded only on
chunk 1; chunk 2 is outstanding. -/
theorem c5_amended_witness :
    (∀ i ∈ (secondRun ["a", "b"] (fun _ s => s) (fun j => j == 1)).calls,
        (firstRun ["a", "b"] (fun _ s => s) (fun j => j == 1)).improvedAfter i = none)
    ∧ (secondRun ["a", "b"] (fun _ s => s) (fun j => j == 1)).success = true
    ∧ (secondRun ["a", "b"] (fun _ s => s) (fun j => j == 1)).finalText =
        (uninterruptedRun ["a", "b"] (fun _ s => s)).finalText :=
  c5_amended ["a", "b"] (fun _ s => s) (fun j => j == 1)
    ⟨1, by decide, by decide⟩

/-- C7: the claim (and the spec) state that the chapter-integrity pass is
best-effort and must never fail.  The code can raise: with chunks
`["0123456789", "XY"]` and chapter markers at offsets 8 and 9 (both in the
trailing 30% of chunk 0) plus one at offset 10, the loop merges chunks 0 and
1 at `i = 0`, then at `i = 1` merges again and calls
`modified_chunks.pop(1)` on a one-element list — an `IndexError`
(modelled as `none`). -/
theorem c7_crash :
    preserve_chapter_integrity [(8, "a"), (9, "b"), (10, "c")]
      ["0123456789", "XY"] 0 100 = none := by
  decide

/-- C10: `get_chunk_text` returns the improved (revised) text whenever the
improved file for the chunk id exists; otherwise, when the metadata lists an
original chunk file for the extracted 1-based chunk number and that file
exists, it silently returns the original, unrevised text; in every other
case it returns `none`.  Both fallback outcomes are plain `some text` — the
caller cannot tell revised from unrevised text from the result alone. -/
theorem c10_lookup (improved : Option String)
    (metadata : Option (List (Option String))) (chunkId : String) :
    (∀ t, improved = some t → get_chunk_text improved metadata chunkId = some t)
    ∧ (∀ cf num txt, improved = none → metadata = some cf →
        findChunkNum chunkId.toList = some num → 0 < num → num ≤ cf.length →
        cf[num - 1]? = some (some txt) →
        get_chunk_text improved metadata chunkId = some txt)
    ∧ (improved = none → metadata = none →
        get_chunk_text improved metadata chunkId = none)
    ∧ (∀ cf, improved = none → metadata = some cf →
        findChunkNum chunkId.toList = none →
        get_chunk_text improved metadata chunkId = none)
    ∧ (∀ cf num, improved = none → metadata = some cf →
        findChunkNum chunkId.toList = some num →
        cf[num - 1]? = some none →
        get_chunk_text improved metadata chunkId = none) := by
  refine ⟨?_, ?_, ?_, ?_, ?_⟩
  · intro t ht
    subst ht
    rfl
  · intro cf num txt h1 h2 h3 h4 h5 h6
    subst h1; subst h2
    simp only [get_chunk_text, h3]
    rw [if_pos ⟨h4, h5⟩, h6]
  · intro h1 h2
    subst h1; subst h2
    rfl
  · intro cf h1 h2 h3
    subst h1; subst h2
    simp only [get_chunk_text, h3]
  · intro cf num h1 h2 h3 h4
    subst h1; subst h2
    simp only [get_chunk_text, h3]
    by_cases hb : 0 < num ∧ num ≤ cf.length
    · rw [if_pos hb, h4]
    · rw [if_neg hb]

/-- Witness for `c10_lookup`: the fallback branch at concrete values — the
improved file is missing, the metadata lists one original chunk file, and
`chunk_0001` resolves to chunk number 1. -/
theorem c10_lookup_witness :
    get_chunk_text none (some [some "original text"]) "chunk_0001" =
      some "original text" :=
  (c10_lookup none (some [some "original text"]) "chunk_0001").2.1
    [some "original text"] 1 "original text" rfl rfl (by decide) (by decide)
    (by decide) (by decide)

end Storybook
